import Mathlib

/-!
# Verification of the kirigami decoding and scoring core

Shallow embedding of the decoding/scoring engine of the kirigami
repository and proofs about it.

Sources embedded:
* `kirigami/layers.py`: `Symmetrize`, `RemoveSharp`, `Canonicalize`,
  `Greedy`, `Dynamic`, `Blossom` (eval-mode `forward` paths).
* `scripts/train.py`: `PAIRS`, `get_scores`, `binarize`.

Conventions of the embedding:
* A squeezed L x L score matrix is a total function `ℕ → ℕ → ℚ`; all
  enumerations are over indices below the explicit length `L`.
* Torch tensor operations that allocate (`+`, `transpose`, `tril`,
  `triu`) are modelled as pure functions.  In-place writes through a
  view (as in `Canonicalize.forward`, which writes `con_[~pair_mask] = 0.`
  into a `squeeze()` view of its input) are modelled by returning a pair
  `(returned value, caller's buffer after the call)`.
* `torch.argsort(descending=True)` combined with the tie handling fixed
  by the specification (descending value, ties by ascending flattened
  index) is modelled by `List.insertionSort` with the total order
  `cellLE`.
* The eval-mode decode paths are modelled (`self.training = False`,
  `sym_only = False`); the train-mode bypass belongs to the excluded
  training collaborator.
-/

/-- RNA bases, the alphabet {A, C, G, U}. -/
inductive Base : Type
| A
| C
| G
| U
deriving DecidableEq, Repr

open Base

/-- `Canonicalize.__init__`: `self._bases = torch.Tensor([2, 3, 5, 7])`;
each one-hot base channel A, C, G, U is encoded by the corresponding
prime. -/
def primeOf : Base → ℕ
| A => 2
| C => 3
| G => 5
| U => 7

/-- `Canonicalize.__init__`: `self._pairs = {14, 15, 35}`; a pair of
bases is kept iff the product of their prime codes lies in this set
(`layers.py`, lines 38-42). -/
def canonPrime (b c : Base) : Bool :=
  primeOf b * primeOf c = 14 ∨ primeOf b * primeOf c = 15 ∨ primeOf b * primeOf c = 35

/-- `train.py`, line 28: `PAIRS = {"AU", "UA", "CG", "GC", "GU", "UG"}`,
membership test `seq[i]+seq[j] in PAIRS`. -/
def inPAIRS (b c : Base) : Bool :=
  (b = A ∧ c = U) ∨ (b = U ∧ c = A) ∨ (b = C ∧ c = G) ∨
  (b = G ∧ c = C) ∨ (b = G ∧ c = U) ∨ (b = U ∧ c = G)

/-- The compatibility relation in the specification's words: the
unordered symbol pair belongs to {A-U, C-G, G-U} (wobble included),
checked symmetrically. -/
def canonSpec (b c : Base) : Bool :=
  ((b = A ∧ c = U) ∨ (b = U ∧ c = A)) ∨
  ((b = C ∧ c = G) ∨ (b = G ∧ c = C)) ∨
  ((b = G ∧ c = U) ∨ (b = U ∧ c = G))

/-- `Symmetrize.forward`: `(ipt + ipt.transpose(-1, -2)) / 2`. -/
def symmetrize (M : ℕ → ℕ → ℚ) : ℕ → ℕ → ℚ :=
  fun i j => (M i j + M j i) / 2

/-- `RemoveSharp.forward`: `ipt.tril(-min_dist) + ipt.triu(min_dist)`
with `self._min_dist = 4`: entry (i, j) is kept iff `|i - j| ≥ d`,
otherwise zeroed. -/
def removeSharp (d : ℕ) (M : ℕ → ℕ → ℚ) : ℕ → ℕ → ℚ :=
  fun i j => if d ≤ i - j ∨ d ≤ j - i then M i j else 0

/-- `Canonicalize.forward`: zero every entry whose prime-product mask
fails; this is the value both returned and (through the squeeze view)
written into the caller's buffer. -/
def canonicalize (seq : ℕ → Base) (M : ℕ → ℕ → ℚ) : ℕ → ℕ → ℚ :=
  fun i j => if canonPrime (seq i) (seq j) then M i j else 0

/-- The preprocessing pipeline shared by the eval-mode decode paths of
`Greedy.forward`, `Dynamic.forward` and `Blossom.forward`:
symmetrize, then remove sharp pairs (min distance 4), then
canonicalize. -/
def preprocess (seq : ℕ → Base) (M : ℕ → ℕ → ℚ) : ℕ → ℕ → ℚ :=
  canonicalize seq (removeSharp 4 (symmetrize M))

/-- `Symmetrize.forward` as a call on the caller's buffer: the result
together with the buffer after the call.  `ipt + ipt.transpose(-1,-2)`
allocates, so the buffer is untouched. -/
def symmetrizeCall (M : ℕ → ℕ → ℚ) : (ℕ → ℕ → ℚ) × (ℕ → ℕ → ℚ) :=
  (symmetrize M, M)

/-- `RemoveSharp.forward` as a call on the caller's buffer: `tril` and
`triu` allocate, so the buffer is untouched. -/
def removeSharpCall (d : ℕ) (M : ℕ → ℕ → ℚ) : (ℕ → ℕ → ℚ) × (ℕ → ℕ → ℚ) :=
  (removeSharp d M, M)

/-- `Canonicalize.forward` as a call on the caller's buffer:
`con_ = con.squeeze()` is a view of `con`, and `con_[~pair_mask] = 0.`
writes through that view, so after the call the caller's buffer holds
the masked matrix. -/
def canonicalizeCall (seq : ℕ → Base) (M : ℕ → ℕ → ℚ) :
    (ℕ → ℕ → ℚ) × (ℕ → ℕ → ℚ) :=
  (canonicalize seq M, canonicalize seq M)

/-- The all-A sequence, used as a concrete input. -/
def seqA : ℕ → Base := fun _ => A

/-- The all-ones matrix, used as a concrete input. -/
def onesMat : ℕ → ℕ → ℚ := fun _ _ => 1

/-- `train.py` `get_scores`, line 65: `total = seq_len * (seq_len-1) / 2`. -/
def totalOf (L : ℕ) : ℚ := (L : ℚ) * ((L : ℚ) - 1) / 2

/-- `train.py` `get_scores`, line 67:
`tp = float(len(prd_pairs.intersection(grd_pairs)))`. -/
def tpOf (prd grd : Finset (ℕ × ℕ)) : ℚ := ((prd ∩ grd).card : ℚ)

/-- `train.py` `get_scores`, line 68: `fp = len(prd_pairs) - tp`. -/
def fpOf (prd grd : Finset (ℕ × ℕ)) : ℚ := (prd.card : ℚ) - tpOf prd grd

/-- `train.py` `get_scores`, line 69: `fn = len(grd_pairs) - tp`. -/
def fnOf (prd grd : Finset (ℕ × ℕ)) : ℚ := (grd.card : ℚ) - tpOf prd grd

/-- `train.py` `get_scores`, line 70: `tn = total - tp - fp - fn`. -/
def tnOf (prd grd : Finset (ℕ × ℕ)) (L : ℕ) : ℚ :=
  totalOf L - tpOf prd grd - fpOf prd grd - fnOf prd grd

/-- `train.py` `get_scores`, line 73: `sn = tp / (tp+fn)` (computed only
when `n_prd > 0 and n_grd > 0`; division by zero cannot occur there
since `tp + fn = n_grd`). -/
def snOf (prd grd : Finset (ℕ × ℕ)) : ℚ :=
  tpOf prd grd / (tpOf prd grd + fnOf prd grd)

/-- `train.py` `get_scores`, line 74: `pr = tp / (tp+fp)`. -/
def prOf (prd grd : Finset (ℕ × ℕ)) : ℚ :=
  tpOf prd grd / (tpOf prd grd + fpOf prd grd)

/-- `train.py` `get_scores`, lines 71-76: `f1` stays `0` unless
`n_prd > 0 and n_grd > 0` and `tp > 0`, else `f1 = 2*sn*pr / (pr+sn)`. -/
def f1Of (prd grd : Finset (ℕ × ℕ)) : ℚ :=
  if 0 < prd.card ∧ 0 < grd.card ∧ 0 < tpOf prd grd then
    2 * snOf prd grd * prOf prd grd / (prOf prd grd + snOf prd grd)
  else 0

/-- `train.py` `get_scores`, line 77: the product
`(tp+fp) * (tp+fn) * (tn+fp) * (tn+fn)`. -/
def mccProdOf (prd grd : Finset (ℕ × ℕ)) (L : ℕ) : ℚ :=
  (tpOf prd grd + fpOf prd grd) * (tpOf prd grd + fnOf prd grd) *
    (tnOf prd grd L + fpOf prd grd) * (tnOf prd grd L + fnOf prd grd)

/-- `train.py` `get_scores`, lines 71-78: `mcc` stays `0` unless
`n_prd > 0 and n_grd > 0` and the product is positive, else
`mcc = (tp*tn - fp*fn) / product**.5`. -/
noncomputable def mccOf (prd grd : Finset (ℕ × ℕ)) (L : ℕ) : ℝ :=
  if 0 < prd.card ∧ 0 < grd.card ∧ 0 < mccProdOf prd grd L then
    ((tpOf prd grd * tnOf prd grd L - fpOf prd grd * fnOf prd grd : ℚ) : ℝ) /
      Real.sqrt ((mccProdOf prd grd L : ℚ) : ℝ)
  else 0

/-- The dictionary returned by `train.py` `get_scores`, lines 79-86. -/
structure ScoreReport where
  tp : ℚ
  tn : ℚ
  fp : ℚ
  fn : ℚ
  f1 : ℚ
  mcc : ℝ
  n_grd : ℕ
  n_prd : ℕ

/-- `train.py`, lines 64-86: `get_scores(prd_pairs, grd_pairs, seq_len)`. -/
noncomputable def get_scores (prd grd : Finset (ℕ × ℕ)) (seq_len : ℕ) :
    ScoreReport :=
  ⟨tpOf prd grd, tnOf prd grd seq_len, fpOf prd grd, fnOf prd grd,
   f1Of prd grd, mccOf prd grd seq_len, grd.card, prd.card⟩

/-- Row-major flattening: `con_flat[idx] = con_[idx // L][idx % L]`
(`torch.flatten` / `ravel`). -/
def flatVal (L : ℕ) (M : ℕ → ℕ → ℚ) (idx : ℕ) : ℚ := M (idx / L) (idx % L)

/-- The sort order of `argsort(descending=True)` with the tie-break
fixed by the specification: descending value, exact ties by ascending
flattened index. -/
def cellLE (v : ℕ → ℚ) (a b : ℕ) : Prop :=
  v b < v a ∨ (v a = v b ∧ a ≤ b)

instance (v : ℕ → ℚ) : DecidableRel (cellLE v) := fun a b => by
  unfold cellLE
  infer_instance

instance (v : ℕ → ℚ) : IsTotal ℕ (cellLE v) := by
  constructor
  intro a b
  rcases lt_trichotomy (v a) (v b) with h | h | h
  · exact Or.inr (Or.inl h)
  · rcases le_total a b with hab | hab
    · exact Or.inl (Or.inr ⟨h, hab⟩)
    · exact Or.inr (Or.inr ⟨h.symm, hab⟩)
  · exact Or.inl (Or.inl h)

instance (v : ℕ → ℚ) : IsTrans ℕ (cellLE v) := by
  constructor
  intro a b c hab hbc
  rcases hab with h1 | ⟨h1, h1'⟩ <;> rcases hbc with h2 | ⟨h2, h2'⟩
  · exact Or.inl (h2.trans h1)
  · exact Or.inl (h2 ▸ h1)
  · exact Or.inl (h1 ▸ h2)
  · exact Or.inr ⟨h1.trans h2, h1'.trans h2'⟩

instance (v : ℕ → ℚ) : IsAntisymm ℕ (cellLE v) := by
  constructor
  intro a b hab hba
  rcases hab with h1 | ⟨h1, h1'⟩ <;> rcases hba with h2 | ⟨h2, h2'⟩
  · exact absurd (h1.trans h2) (lt_irrefl _)
  · exact absurd h1 (h2 ▸ lt_irrefl _)
  · exact absurd h2 (h1 ▸ lt_irrefl _)
  · exact Nat.le_antisymm h1' h2'

/-- `idxs = con_flat.argsort(descending=True)` over the `n = L*L`
flattened cells, with the specification's deterministic tie-break. -/
def sortedCells (v : ℕ → ℚ) (n : ℕ) : List ℕ :=
  List.insertionSort (cellLE v) (List.range n)

/-- State of the greedy selection loops in `Greedy.forward` and
`binarize`: `used` models the `memo` / `kept` boolean arrays, `acc` the
accepted pairs in acceptance order. -/
structure MState where
  used : List ℕ
  acc : List (ℕ × ℕ)

/-- `tuple(sorted((i, j)))` in `binarize`. -/
def sortPair (p : ℕ × ℕ) : ℕ × ℕ := (min p.1 p.2, max p.1 p.2)

/-- One iteration of the shared greedy pairing loop.  `pair` extracts
the two indices from a flattened index (`Greedy.forward` uses
`(idx % L, idx // L)`, `binarize` uses `(idx // L, idx % L)`); `store`
is how the accepted pair is recorded (`Greedy.forward` records it
symmetrically in `one_mask`, `binarize` stores `tuple(sorted((i,j)))`);
`co` is the extra skip condition (`binarize`'s canonical check; trivial
for `Greedy`); `cap` is the pair-count bound.  Reaching `cap` breaks
the source loops; here the remaining iterations are no-ops, which is
the same final state. -/
def selStep (pair : ℕ → ℕ × ℕ) (store : ℕ × ℕ → ℕ × ℕ) (co : ℕ → Bool)
    (cap : ℕ) (s : MState) (idx : ℕ) : MState :=
  if s.acc.length = cap then s
  else if (pair idx).1 ∈ s.used ∨ (pair idx).2 ∈ s.used ∨ ¬ co idx then s
  else ⟨(pair idx).1 :: (pair idx).2 :: s.used, s.acc ++ [store (pair idx)]⟩

/-- The full selection loop, starting from empty `memo` / `kept` and no
accepted pairs. -/
def selRun (pair : ℕ → ℕ × ℕ) (store : ℕ × ℕ → ℕ × ℕ) (co : ℕ → Bool)
    (cap : ℕ) (idxs : List ℕ) : MState :=
  idxs.foldl (selStep pair store co cap) ⟨[], []⟩

/-- `Greedy.forward`, lines 70-86 (eval mode): preprocess, sort all
`L*L` flattened cells, then greedily accept with
`i = idx % L, j = idx // L`, `memo` check, and pair cap
`min(ground_truth, L // 2)`.  Returns the accepted pairs (the cells set
in `one_mask`, in acceptance order). -/
def greedyAccepted (M : ℕ → ℕ → ℚ) (seq : ℕ → Base) (L gt : ℕ) :
    List (ℕ × ℕ) :=
  (selRun (fun idx => (idx % L, idx / L)) id (fun _ => true) (min gt (L / 2))
    (sortedCells (flatVal L (preprocess seq M)) (L * L))).acc

/-- The matrix returned by `Greedy.forward`: `con_[~one_mask] = 0.`,
i.e. the preprocessed entry survives iff its cell (in either
orientation, since `one_mask[i, j] = one_mask[j, i] = True`) was
accepted. -/
def greedyOut (M : ℕ → ℕ → ℚ) (seq : ℕ → Base) (L gt : ℕ) : ℕ → ℕ → ℚ :=
  fun i j =>
    if (i, j) ∈ greedyAccepted M seq L gt ∨ (j, i) ∈ greedyAccepted M seq L gt
    then preprocess seq M i j else 0

/-- `binarize`, lines 101-104: the windowed sub-matrix
`lab_.squeeze()[beg:end, beg:end]`, optionally symmetrized as
`lab + lab.T` (note: no division by 2 here, unlike `Symmetrize`). -/
def binLabS (lab : ℕ → ℕ → ℚ) (beg : ℕ) (symF : Bool) : ℕ → ℕ → ℚ :=
  if symF then fun i j => lab (i + beg) (j + beg) + lab (j + beg) (i + beg)
  else fun i j => lab (i + beg) (j + beg)

/-- `binarize`, lines 104-114: flatten, argsort descending (with the
specification's tie-break), convert back to 2D via
`ii = idx // seq_len`, `jj = idx % seq_len`, and drop indices closer
than `min_dist`, keeping the sorted order. -/
def binCands (lab : ℕ → ℕ → ℚ) (fullLen seqLen minDist : ℕ)
    (symF : Bool) : List ℕ :=
  (sortedCells (flatVal seqLen (binLabS lab ((fullLen - seqLen) / 2) symF))
      (seqLen * seqLen)).filter (fun idx =>
    decide (minDist ≤ idx / seqLen - idx % seqLen ∨
            minDist ≤ idx % seqLen - idx / seqLen))

/-- `train.py`, lines 89-134: `binarize(lab_, seq, thres_pairs,
thres_prob, min_dist, symmetrize, canonicalize)`.  `lab` is the
possibly padded `full_len × full_len` score matrix, `seq`/`seqLen` the
true sequence; returns `(out_tensor, out_set)`.  The `thres_prob`
argument is (faithfully) never consulted. -/
def binarize (lab : ℕ → ℕ → ℚ) (fullLen : ℕ) (seq : ℕ → Base)
    (seqLen : ℕ) (thresPairs : ℕ) (thresProb : ℚ) (minDist : ℕ)
    (symF canonF : Bool) : (ℕ → ℕ → ℚ) × List (ℕ × ℕ) :=
  let beg := (fullLen - seqLen) / 2
  let st := selRun (fun idx => (idx / seqLen, idx % seqLen)) sortPair
    (fun idx => !canonF || inPAIRS (seq (idx / seqLen)) (seq (idx % seqLen)))
    thresPairs (binCands lab fullLen seqLen minDist symF)
  let outT : ℕ → ℕ → ℚ := fun a b =>
    if st.acc.any (fun p =>
        (a = p.1 + beg ∧ b = p.2 + beg) ∨ (a = p.2 + beg ∧ b = p.1 + beg))
    then 1 else 0
  (outT, st.acc)

/-- Two pairs share a sequence index. -/
def sharesIdx (p q : ℕ × ℕ) : Prop :=
  p.1 = q.1 ∨ p.1 = q.2 ∨ p.2 = q.1 ∨ p.2 = q.2

/-- The all-zero matrix, used as a concrete input. -/
def zeroMat : ℕ → ℕ → ℚ := fun _ _ => 0

/-- The sequence AAAAU (A everywhere except index 4), used as a
concrete input: its only canonical pair at distance ≥ 4 within length 5
is (0, 4). -/
def seqAU : ℕ → Base := fun n => if n = 4 then U else A

/-- C9: symmetrize is idempotent. -/
theorem symmetrize_idem (M : ℕ → ℕ → ℚ) :
    symmetrize (symmetrize M) = symmetrize M := by
  funext i j
  simp only [symmetrize]
  ring

/-- C7: `canonicalize` zeroes exactly the entries whose unordered symbol
pair is outside {A-U, C-G, G-U} and keeps the rest, and the prime
encoding (A,C,G,U as 2,3,5,7 with valid products {14,15,35}) realizes
exactly that six-pair relation, symmetrically. -/
theorem canonicalize_canonical_pairs :
    (∀ (seq : ℕ → Base) (M : ℕ → ℕ → ℚ) (i j : ℕ),
      canonicalize seq M i j =
        if canonSpec (seq i) (seq j) then M i j else 0) ∧
    (∀ b c : Base, canonPrime b c = canonSpec b c) ∧
    (∀ b c : Base, canonSpec b c = canonSpec c b) := by
  refine ⟨?_, ?_, ?_⟩
  · intro seq M i j
    have h : canonPrime (seq i) (seq j) = canonSpec (seq i) (seq j) := by
      cases seq i <;> cases seq j <;> decide
    rw [canonicalize, h]
  · intro b c
    cases b <;> cases c <;> decide
  · intro b c
    cases b <;> cases c <;> decide

/-- C6 counterexample: `Canonicalize.forward` does not leave the
caller's matrix unchanged — it writes zeros through the `squeeze()`
view.  On the all-ones matrix with the all-A sequence the buffer entry
(0, 0) is zeroed. -/
theorem canonicalize_mutates_input :
    ¬ ((canonicalizeCall seqA onesMat).2 = onesMat) := by
  intro h
  have h0 := congrFun (congrFun h 0) 0
  simp [canonicalizeCall, canonicalize, seqA, onesMat, canonPrime, primeOf] at h0

/-- C6 amended: `symmetrize` and `remove_close` are pure (the caller's
buffer is unchanged by the call, the result is freshly allocated and of
the same shape), but `canonicalize` writes through a view of its input:
after the call the caller's buffer equals the returned (masked) matrix.
Shapes are preserved by all three (the state type is `ℕ → ℕ → ℚ`
throughout). -/
theorem preprocessing_effects :
    (∀ M : ℕ → ℕ → ℚ, (symmetrizeCall M).2 = M) ∧
    (∀ (d : ℕ) (M : ℕ → ℕ → ℚ), (removeSharpCall d M).2 = M) ∧
    (∀ (seq : ℕ → Base) (M : ℕ → ℕ → ℚ),
      (canonicalizeCall seq M).2 = canonicalize seq M) :=
  ⟨fun _ => rfl, fun _ _ => rfl, fun _ _ => rfl⟩

/-- C1 counterexample: with L = 2 and predicted = reference = {(0,1)}
(non-empty, matching invariant holds, every index below L), the
confusion matrix has tn = 0, so the mcc product is 0 and `get_scores`
returns mcc = 0, not 1 — the claimed conjunction fails. -/
theorem get_scores_perfect_match_fails :
    ¬ (((get_scores {(0, 1)} {(0, 1)} 2).f1 = 1) ∧
       ((get_scores {(0, 1)} {(0, 1)} 2).mcc = 1)) := by
  intro h
  have h2 := h.2
  have hprodz : mccProdOf {((0 : ℕ), (1 : ℕ))} {((0 : ℕ), (1 : ℕ))} 2 = 0 := by
    rw [mccProdOf, tnOf, fnOf, fpOf, tpOf, totalOf, Finset.inter_self]
    norm_num
  have hprod : ¬ (0 < ({((0 : ℕ), (1 : ℕ))} : Finset (ℕ × ℕ)).card ∧
      0 < ({((0 : ℕ), (1 : ℕ))} : Finset (ℕ × ℕ)).card ∧
      0 < mccProdOf {(0, 1)} {(0, 1)} 2) := fun hc =>
    absurd (hprodz ▸ hc.2.2) (lt_irrefl 0)
  have hm : mccOf {((0 : ℕ), (1 : ℕ))} {((0 : ℕ), (1 : ℕ))} 2 = 0 := by
    rw [mccOf, if_neg hprod]
  rw [get_scores] at h2
  simp only [hm] at h2
  norm_num at h2

/-- C1 amended: if predicted = reference = P, P is non-empty, the pairs
are valid for length L and satisfy the matching invariant, and
additionally tn > 0 (equivalently |P| < L(L-1)/2; tn = 0 is reachable
only at L = 2 with P = {(0,1)}), then `get_scores` reports f1 = 1 and
mcc = 1. -/
theorem get_scores_perfect_match (L : ℕ) (P : Finset (ℕ × ℕ))
    (hne : P.Nonempty)
    (hvalid : ∀ p ∈ P, p.1 < p.2 ∧ p.2 < L)
    (hmatch : ∀ p ∈ P, ∀ q ∈ P, p ≠ q →
      p.1 ≠ q.1 ∧ p.1 ≠ q.2 ∧ p.2 ≠ q.1 ∧ p.2 ≠ q.2)
    (htn : (P.card : ℚ) < totalOf L) :
    (get_scores P P L).f1 = 1 ∧ (get_scores P P L).mcc = 1 := by
  have hcard : 0 < P.card := Finset.card_pos.mpr hne
  have htp : tpOf P P = (P.card : ℚ) := by
    rw [tpOf, Finset.inter_self]
  have hcq : (0 : ℚ) < (P.card : ℚ) := by exact_mod_cast hcard
  have hfp : fpOf P P = 0 := by rw [fpOf, htp]; ring
  have hfn : fnOf P P = 0 := by rw [fnOf, htp]; ring
  have htn' : tnOf P P L = totalOf L - (P.card : ℚ) := by
    rw [tnOf, htp, hfp, hfn]; ring
  have htnpos : 0 < tnOf P P L := by rw [htn']; linarith
  constructor
  · show f1Of P P = 1
    rw [f1Of, if_pos ⟨hcard, hcard, htp ▸ hcq⟩, snOf, prOf, htp, hfp, hfn]
    field_simp
    norm_num
  · show mccOf P P L = 1
    have hprod : mccProdOf P P L = ((P.card : ℚ) * tnOf P P L) ^ 2 := by
      rw [mccProdOf, htp, hfp, hfn]; ring
    have hpos : 0 < (P.card : ℚ) * tnOf P P L := mul_pos hcq htnpos
    rw [mccOf, if_pos ⟨hcard, hcard, by rw [hprod]; positivity⟩, htp, hfp, hfn,
      hprod]
    have hsq : Real.sqrt ((((P.card : ℚ) * tnOf P P L) ^ 2 : ℚ) : ℝ) =
        (((P.card : ℚ) * tnOf P P L : ℚ) : ℝ) := by
      push_cast
      exact Real.sqrt_sq (by positivity)
    rw [hsq]
    have hne' : (((P.card : ℚ) * tnOf P P L : ℚ) : ℝ) ≠ 0 := by
      exact_mod_cast ne_of_gt hpos
    rw [show ((P.card : ℚ) * tnOf P P L - 0 * 0) = (P.card : ℚ) * tnOf P P L by
      ring]
    exact div_self hne'

/-- Witness for the amended C1 at L = 5, P = {(0, 4)}. -/
theorem get_scores_perfect_match_witness :
    (get_scores {(0, 4)} {(0, 4)} 5).f1 = 1 ∧
    (get_scores {(0, 4)} {(0, 4)} 5).mcc = 1 := by
  refine get_scores_perfect_match 5 {(0, 4)} ⟨(0, 4), by decide⟩ ?_ ?_ ?_
  · intro p hp
    simp only [Finset.mem_singleton] at hp
    subst hp
    exact ⟨by norm_num, by norm_num⟩
  · intro p hp q hq hpq
    simp only [Finset.mem_singleton] at hp hq
    exact absurd (hp.trans hq.symm) hpq
  · rw [totalOf]
    norm_num

/-- When all flattened values are equal, the sorted cell list (ties by
ascending index) is just `List.range n`. -/
theorem sortedCells_const (v : ℕ → ℚ) (n : ℕ) (hv : ∀ a b, v a = v b) :
    sortedCells v n = List.range n := by
  apply List.Sorted.insertionSort_eq
  exact (List.pairwise_lt_range n).imp
    (fun hlt => Or.inr ⟨hv _ _, Nat.le_of_lt hlt⟩)

/-- On the all-zero 5×5 matrix with sequence AAAAU, `binarize` (any
probability floor `t`) accepts the zero-score pair (0, 4). -/
theorem binarizeZeroRun (t : ℚ) :
    (binarize zeroMat 5 seqAU 5 1 t 4 true true).2 = [(0, 4)] := by
  have hv : ∀ a b : ℕ,
      flatVal 5 (binLabS zeroMat ((5 - 5) / 2) true) a =
      flatVal 5 (binLabS zeroMat ((5 - 5) / 2) true) b := fun _ _ => rfl
  simp only [binarize, binCands]
  rw [sortedCells_const _ _ hv]
  decide

/-- On the all-zero 5×5 matrix with sequence AAAAU and pair target 1,
`Greedy.forward` accepts the zero-score diagonal cell (0, 0). -/
theorem greedyZeroRun : greedyAccepted zeroMat seqAU 5 1 = [(0, 0)] := by
  have h0 : ∀ idx, flatVal 5 (preprocess seqAU zeroMat) idx = 0 := by
    intro idx
    simp only [flatVal, preprocess, canonicalize, removeSharp, symmetrize,
      zeroMat]
    split_ifs <;> norm_num
  simp only [greedyAccepted]
  rw [sortedCells_const _ _ (fun a b => (h0 a).trans (h0 b).symm)]
  decide

/-- C2 (code evidence): `binarize` never consults a score threshold.
On the all-zero matrix with sequence AAAAU, pair target 1 and
`thres_prob = 1/2` it returns the pair (0, 4) whose score 0 is ≤ 0 and
below the configured threshold. -/
theorem binarize_accepts_below_threshold :
    (binarize zeroMat 5 seqAU 5 1 (1 / 2) 4 true true).2 = [(0, 4)] :=
  binarizeZeroRun (1 / 2)

/-- C10: the Binarizer's output (both the dense matrix and the pair
set) is identical for any two values of the `thres_prob` parameter —
the parameter is never read. -/
theorem binarize_thresProb_irrelevant (lab : ℕ → ℕ → ℚ) (fullLen : ℕ)
    (seq : ℕ → Base) (seqLen thresPairs : ℕ) (t1 t2 : ℚ) (minDist : ℕ)
    (symF canonF : Bool) :
    binarize lab fullLen seq seqLen thresPairs t1 minDist symF canonF =
    binarize lab fullLen seq seqLen thresPairs t2 minDist symF canonF := by
  rfl

/-- C4 counterexample: on the all-zero 5×5 matrix (no padding) with
sequence AAAAU, target pair count 1 and matching settings, `binarize`
returns {(0, 4)} while `Greedy.forward` spends its budget on the
zero-score diagonal cell (0, 0): the two pair sets differ. -/
theorem binarize_ne_greedy :
    ¬ (((binarize zeroMat 5 seqAU 5 1 0 4 true true).2).toFinset =
       ((greedyAccepted zeroMat seqAU 5 1).map sortPair).toFinset) := by
  rw [binarizeZeroRun 0, greedyZeroRun]
  decide

/-- Helper: every entry of the preprocessed all-zero matrix is 0. -/
theorem preprocess_zeroMat (seq : ℕ → Base) (i j : ℕ) :
    preprocess seq zeroMat i j = 0 := by
  simp only [preprocess, canonicalize, removeSharp, symmetrize, zeroMat]
  split_ifs <;> norm_num

/-- The pair set read off a decoder's output matrix: a decoder marks an
accepted pair by keeping its (positive) score and zeroes everything
else, so the pairs are the strictly positive entries (i, j) with
i < j < L. -/
def pairsOfMat (Mo : ℕ → ℕ → ℚ) (L : ℕ) : List (ℕ × ℕ) :=
  (List.range L).bind (fun i =>
    ((List.range L).filter (fun j => decide (i < j) && decide (0 < Mo i j))).map
      (fun j => (i, j)))

/-- `Blossom.forward`, lines 126-157 (eval mode): preprocess; if no
entry is strictly positive (`torch.sum(con > 0) == 0`) return `con`
unchanged; otherwise mask `con` to the edges of the matching, recorded
symmetrically.  `nx.max_weight_matching` is an external library call
(networkx), abstracted here as the `matchRes` edge-list argument; its
documented contract (a matching: no two edges share a node, no
self-loop) is taken as a hypothesis where needed. -/
def blossomOut (matchRes : List (ℕ × ℕ)) (M : ℕ → ℕ → ℚ) (seq : ℕ → Base)
    (L : ℕ) : ℕ → ℕ → ℚ :=
  if ((List.range L).all fun i => (List.range L).all fun j =>
      decide (¬ 0 < preprocess seq M i j)) then preprocess seq M
  else fun i j =>
    if (i, j) ∈ matchRes ∨ (j, i) ∈ matchRes then preprocess seq M i j else 0

/-- The PairSet returned by the WeightedMatchingDecoder. -/
def blossomPairs (matchRes : List (ℕ × ℕ)) (M : ℕ → ℕ → ℚ)
    (seq : ℕ → Base) (L : ℕ) : List (ℕ × ℕ) :=
  pairsOfMat (blossomOut matchRes M seq L) L

/-- C8: if no entry of the preprocessed matrix is strictly positive,
the WeightedMatchingDecoder returns the empty PairSet. -/
theorem blossom_no_positive_empty (matchRes : List (ℕ × ℕ))
    (M : ℕ → ℕ → ℚ) (seq : ℕ → Base) (L : ℕ)
    (h : ∀ i j, i < L → j < L → ¬ 0 < preprocess seq M i j) :
    blossomPairs matchRes M seq L = [] := by
  have hall : ((List.range L).all fun i => (List.range L).all fun j =>
      decide (¬ 0 < preprocess seq M i j)) = true := by
    rw [List.all_eq_true]
    intro i hi
    rw [List.all_eq_true]
    intro j hj
    exact decide_eq_true (h i j (List.mem_range.mp hi) (List.mem_range.mp hj))
  unfold blossomPairs blossomOut
  rw [if_pos hall]
  unfold pairsOfMat
  rw [List.bind_eq_nil]
  intro i hi
  rw [List.map_eq_nil]
  rw [List.filter_eq_nil]
  intro j hj
  simp only [Bool.and_eq_true, decide_eq_true_eq, not_and]
  intro _
  exact h i j (List.mem_range.mp hi) (List.mem_range.mp hj)

/-- Witness for C8 at the all-zero 5×5 matrix with the all-A sequence
and an empty matching. -/
theorem blossom_no_positive_empty_witness :
    blossomPairs [] zeroMat seqA 5 = [] :=
  blossom_no_positive_empty [] zeroMat seqA 5 (fun i j _ _ => by
    rw [preprocess_zeroMat]
    exact lt_irrefl 0)

instance (p q : ℕ × ℕ) : Decidable (sharesIdx p q) := by
  unfold sharesIdx
  infer_instance

/-- `store` only reorders the two indices of a pair (true of both `id`
and `tuple(sorted(...))`). -/
def storeOK (store : ℕ × ℕ → ℕ × ℕ) : Prop :=
  ∀ p, store p = p ∨ store p = (p.2, p.1)

theorem storeOK_id : storeOK id := fun _ => Or.inl rfl

theorem storeOK_sortPair : storeOK sortPair := by
  intro p
  unfold sortPair
  rcases le_total p.1 p.2 with h | h
  · exact Or.inl (by rw [min_eq_left h, max_eq_right h])
  · exact Or.inr (by rw [min_eq_right h, max_eq_left h])

/-- Invariant of the selection loop: every accepted pair has both
indices marked used, and no two accepted pairs share an index. -/
def selGood (s : MState) : Prop :=
  (∀ p ∈ s.acc, p.1 ∈ s.used ∧ p.2 ∈ s.used) ∧
  List.Pairwise (fun p q => ¬ sharesIdx p q) s.acc

theorem selStep_good (pair : ℕ → ℕ × ℕ) (store : ℕ × ℕ → ℕ × ℕ)
    (co : ℕ → Bool) (cap : ℕ) (hst : storeOK store) (s : MState) (idx : ℕ)
    (hs : selGood s) : selGood (selStep pair store co cap s idx) := by
  unfold selStep
  split_ifs with h1 h2
  · exact hs
  · exact hs
  · push_neg at h2
    obtain ⟨hu1, hu2, _⟩ := h2
    have hcomp : (store (pair idx)).1 ∉ s.used ∧ (store (pair idx)).2 ∉ s.used := by
      rcases hst (pair idx) with h | h <;> rw [h] <;> exact ⟨by assumption, by assumption⟩
    constructor
    · intro p hp
      rw [List.mem_append] at hp
      rcases hp with hp | hp
      · have h := hs.1 p hp
        exact ⟨List.mem_cons_of_mem _ (List.mem_cons_of_mem _ h.1),
               List.mem_cons_of_mem _ (List.mem_cons_of_mem _ h.2)⟩
      · rw [List.mem_singleton] at hp
        subst hp
        rcases hst (pair idx) with h | h <;> rw [h]
        · exact ⟨List.mem_cons_self _ _, List.mem_cons_of_mem _ (List.mem_cons_self _ _)⟩
        · exact ⟨List.mem_cons_of_mem _ (List.mem_cons_self _ _), List.mem_cons_self _ _⟩
    · rw [List.pairwise_append]
      refine ⟨hs.2, List.pairwise_singleton _ _, ?_⟩
      intro q hq sp hsp
      rw [List.mem_singleton] at hsp
      subst hsp
      have hq' := hs.1 q hq
      intro hcontra
      rcases hcontra with e | e | e | e
      · exact hcomp.1 (e ▸ hq'.1)
      · exact hcomp.2 (e ▸ hq'.1)
      · exact hcomp.1 (e ▸ hq'.2)
      · exact hcomp.2 (e ▸ hq'.2)

theorem selFold_good (pair : ℕ → ℕ × ℕ) (store : ℕ × ℕ → ℕ × ℕ)
    (co : ℕ → Bool) (cap : ℕ) (hst : storeOK store) :
    ∀ (idxs : List ℕ) (s : MState), selGood s →
      selGood (idxs.foldl (selStep pair store co cap) s) := by
  intro idxs
  induction idxs with
  | nil => intro s hs; exact hs
  | cons a l ih =>
    intro s hs
    exact ih _ (selStep_good pair store co cap hst s a hs)

theorem selRun_good (pair : ℕ → ℕ × ℕ) (store : ℕ × ℕ → ℕ × ℕ)
    (co : ℕ → Bool) (cap : ℕ) (hst : storeOK store) (idxs : List ℕ) :
    selGood (selRun pair store co cap idxs) := by
  unfold selRun
  exact selFold_good pair store co cap hst idxs ⟨[], []⟩
    ⟨fun p hp => absurd hp (List.not_mem_nil p), List.Pairwise.nil⟩

/-- Modelled from the spec: `kirigami.nussinov.nussinov`, the dynamic
program called by `Dynamic.forward` (`layers.py`, line 109), is
repository code not included under `src/`.  Following spec §4.3:
`best[i][j]` is the maximum achievable weight using only positions in
[i, j]; intervals shorter than `min_pair_distance + 1` score 0;
`best[i][j] = max(best[i][j-1], max over k in [i, j-1] with
weight(k,j) > 0 of best[i][k-1] + weight(k,j) + best[k+1][j-1])`.
The extra `j ≤ i` guard is redundant for `d ≥ 1` (the decoder uses
`d = 4`) and makes the recursion well-founded for every `d`. -/
def best (w : ℕ → ℕ → ℚ) (d : ℕ) (i j : ℕ) : ℚ :=
  if h : j < i + d ∨ j ≤ i then 0
  else
    (((List.range' i (j - i)).filter (fun k => decide (0 < w k j))).attach.map
      (fun k => best w d i (k.1 - 1) + w k.1 j + best w d (k.1 + 1) (j - 1))).foldl
      max (best w d i (j - 1))
termination_by j - i
decreasing_by
  all_goals simp_wf
  all_goals
    first
    | omega
    | (have hk := List.mem_filter.mp k.2
       have hk2 := List.mem_range'_1.mp hk.1
       omega)

/-- Modelled from the spec: the traceback of the Nussinov DP (spec
§4.3) — re-derive at each interval which branch attained the maximum,
preferring `best[i][j-1]` on exact ties; among pairing candidates the
smallest `k` attaining the maximum is chosen (`find?` on the ascending
candidate list). -/
def tb (w : ℕ → ℕ → ℚ) (d : ℕ) (i j : ℕ) : List (ℕ × ℕ) :=
  if h : j < i + d ∨ j ≤ i then []
  else if best w d i j = best w d i (j - 1) then tb w d i (j - 1)
  else
    match ((List.range' i (j - i)).filter (fun k => decide (0 < w k j))).attach.find?
        (fun k => decide (best w d i j =
          best w d i (k.1 - 1) + w k.1 j + best w d (k.1 + 1) (j - 1))) with
    | none => []
    | some k => (k.1, j) :: (tb w d i (k.1 - 1) ++ tb w d (k.1 + 1) (j - 1))
termination_by j - i
decreasing_by
  all_goals simp_wf
  all_goals
    first
    | omega
    | (have hk := List.mem_filter.mp k.2
       have hk2 := List.mem_range'_1.mp hk.1
       omega)

/-- Two pairs interleave (cross): i < k < j < l or k < i < l < j. -/
def crossing (p q : ℕ × ℕ) : Prop :=
  (p.1 < q.1 ∧ q.1 < p.2 ∧ p.2 < q.2) ∨ (q.1 < p.1 ∧ p.1 < q.2 ∧ q.2 < p.2)

/-- Every traceback pair lies within its interval, with the first index
strictly below the second. -/
theorem tb_bounds (w : ℕ → ℕ → ℚ) (d : ℕ) (i j : ℕ) :
    ∀ p ∈ tb w d i j, i ≤ p.1 ∧ p.1 < p.2 ∧ p.2 ≤ j := by
  induction i, j using tb.induct w d
  case case1 i j h =>
    intro p hp
    rw [tb.eq_def, dif_pos h] at hp
    exact absurd hp (List.not_mem_nil p)
  case case2 i j h1 h2 ih =>
    intro p hp
    rw [tb.eq_def, dif_neg h1, if_pos h2] at hp
    have := ih p hp
    omega
  case case3 i j h1 h2 hf =>
    intro p hp
    rw [tb.eq_def, dif_neg h1, if_neg h2, hf] at hp
    exact absurd hp (List.not_mem_nil p)
  case case4 i j h1 h2 k hf ih2 ih1 =>
    intro p hp
    rw [tb.eq_def, dif_neg h1, if_neg h2, hf] at hp
    simp only [List.mem_cons, List.mem_append] at hp
    have hk := List.mem_filter.mp k.2
    have hk2 := List.mem_range'_1.mp hk.1
    rcases hp with rfl | hp | hp
    · refine ⟨hk2.1, ?_, le_rfl⟩
      show k.1 < j
      omega
    · have := ih2 p hp
      omega
    · have := ih1 p hp
      omega

theorem tb_noncross (w : ℕ → ℕ → ℚ) (d : ℕ) (i j : ℕ) :
    List.Pairwise (fun p q => ¬ crossing p q) (tb w d i j) := by
  induction i, j using tb.induct w d
  case case1 i j h =>
    rw [tb.eq_def, dif_pos h]
    exact List.Pairwise.nil
  case case2 i j h1 h2 ih =>
    rw [tb.eq_def, dif_neg h1, if_pos h2]
    exact ih
  case case3 i j h1 h2 hf =>
    rw [tb.eq_def, dif_neg h1, if_neg h2, hf]
    exact List.Pairwise.nil
  case case4 i j h1 h2 k hf ih2 ih1 =>
    rw [tb.eq_def, dif_neg h1, if_neg h2, hf]
    have hk2 := List.mem_range'_1.mp (List.mem_filter.mp k.2).1
    simp only [List.pairwise_cons, List.pairwise_append, List.mem_append]
    refine ⟨?_, ih2, ih1, ?_⟩
    · intro q hq hc
      rcases hq with hq | hq
      · have hb := tb_bounds w d i (k.1 - 1) q hq
        dsimp only [crossing] at hc
        rcases hc with ⟨a, b, c⟩ | ⟨a, b, c⟩ <;> omega
      · have hb := tb_bounds w d (k.1 + 1) (j - 1) q hq
        dsimp only [crossing] at hc
        rcases hc with ⟨a, b, c⟩ | ⟨a, b, c⟩ <;> omega
    · intro p hp q hq hc
      have hbp := tb_bounds w d i (k.1 - 1) p hp
      have hbq := tb_bounds w d (k.1 + 1) (j - 1) q hq
      dsimp only [crossing] at hc
      rcases hc with ⟨a, b, c⟩ | ⟨a, b, c⟩ <;> omega

theorem tb_disjoint (w : ℕ → ℕ → ℚ) (d : ℕ) (i j : ℕ) :
    List.Pairwise (fun p q => ¬ sharesIdx p q) (tb w d i j) := by
  induction i, j using tb.induct w d
  case case1 i j h =>
    rw [tb.eq_def, dif_pos h]
    exact List.Pairwise.nil
  case case2 i j h1 h2 ih =>
    rw [tb.eq_def, dif_neg h1, if_pos h2]
    exact ih
  case case3 i j h1 h2 hf =>
    rw [tb.eq_def, dif_neg h1, if_neg h2, hf]
    exact List.Pairwise.nil
  case case4 i j h1 h2 k hf ih2 ih1 =>
    rw [tb.eq_def, dif_neg h1, if_neg h2, hf]
    have hk2 := List.mem_range'_1.mp (List.mem_filter.mp k.2).1
    simp only [List.pairwise_cons, List.pairwise_append, List.mem_append]
    refine ⟨?_, ih2, ih1, ?_⟩
    · intro q hq hc
      rcases hq with hq | hq
      · have hb := tb_bounds w d i (k.1 - 1) q hq
        dsimp only [sharesIdx] at hc
        rcases hc with e | e | e | e <;> omega
      · have hb := tb_bounds w d (k.1 + 1) (j - 1) q hq
        dsimp only [sharesIdx] at hc
        rcases hc with e | e | e | e <;> omega
    · intro p hp q hq hc
      have hbp := tb_bounds w d i (k.1 - 1) p hp
      have hbq := tb_bounds w d (k.1 + 1) (j - 1) q hq
      dsimp only [sharesIdx] at hc
      rcases hc with e | e | e | e <;> omega

/-- `Dynamic.forward`, lines 99-113 (eval mode): preprocess, run the
(spec-modelled) Nussinov DP on the preprocessed matrix over the whole
index range [0, L-1], and return the traceback pairs (the output matrix
is `con_ * pair_mask`, whose nonzero cells are among these pairs). -/
def dynamicPairs (M : ℕ → ℕ → ℚ) (seq : ℕ → Base) (L : ℕ) : List (ℕ × ℕ) :=
  tb (preprocess seq M) 4 0 (L - 1)

/-- C5: no two pairs returned by the NonCrossingDPDecoder interleave.
(The DP itself is modelled from the spec, since `kirigami.nussinov` is
not part of the provided sources.) -/
theorem dynamic_noncrossing (M : ℕ → ℕ → ℚ) (seq : ℕ → Base) (L : ℕ) :
    List.Pairwise (fun p q => ¬ crossing p q) (dynamicPairs M seq L) :=
  tb_noncross (preprocess seq M) 4 0 (L - 1)

theorem mem_pairsOfMat (Mo : ℕ → ℕ → ℚ) (L : ℕ) (p : ℕ × ℕ) :
    p ∈ pairsOfMat Mo L ↔
      p.1 < L ∧ p.2 < L ∧ p.1 < p.2 ∧ 0 < Mo p.1 p.2 := by
  unfold pairsOfMat
  rw [List.mem_bind]
  constructor
  · rintro ⟨i, hi, hp⟩
    rw [List.mem_map] at hp
    obtain ⟨j, hj, rfl⟩ := hp
    rw [List.mem_filter] at hj
    obtain ⟨hjr, hcond⟩ := hj
    simp only [Bool.and_eq_true, decide_eq_true_eq] at hcond
    exact ⟨List.mem_range.mp hi, List.mem_range.mp hjr, hcond.1, hcond.2⟩
  · rintro ⟨h1, h2, h3, h4⟩
    refine ⟨p.1, List.mem_range.mpr h1, ?_⟩
    rw [List.mem_map]
    refine ⟨p.2, ?_, rfl⟩
    rw [List.mem_filter]
    refine ⟨List.mem_range.mpr h2, ?_⟩
    simp only [Bool.and_eq_true, decide_eq_true_eq]
    exact ⟨h3, h4⟩

theorem pairsOfMat_nodup (Mo : ℕ → ℕ → ℚ) (L : ℕ) :
    (pairsOfMat Mo L).Nodup := by
  unfold pairsOfMat
  rw [List.nodup_bind]
  constructor
  · intro i _
    exact ((List.nodup_range L).filter _).map
      (fun j1 j2 h => by
        rw [Prod.mk.injEq] at h
        exact h.2)
  · apply (List.pairwise_lt_range L).imp
    intro a b hab
    simp only [Function.onFun]
    rw [List.disjoint_left]
    intro x hxa hxb
    rw [List.mem_map] at hxa hxb
    obtain ⟨j1, _, rfl⟩ := hxa
    obtain ⟨j2, _, he⟩ := hxb
    rw [Prod.mk.injEq] at he
    exact absurd he.1 (Nat.ne_of_lt hab).symm

theorem sharesIdx_symm_not :
    Symmetric (fun p q : ℕ × ℕ => ¬ sharesIdx p q) := by
  intro p q h hc
  apply h
  dsimp only [sharesIdx] at hc ⊢
  tauto

theorem blossomPairs_pairwise (matchRes : List (ℕ × ℕ))
    (M : ℕ → ℕ → ℚ) (seq : ℕ → Base) (L : ℕ)
    (hm1 : ∀ e ∈ matchRes, e.1 ≠ e.2)
    (hm2 : List.Pairwise (fun p q => ¬ sharesIdx p q) matchRes) :
    List.Pairwise (fun p q => ¬ sharesIdx p q)
      (blossomPairs matchRes M seq L) := by
  apply (pairsOfMat_nodup _ L).pairwise_of_forall_ne
  intro p hp q hq hne
  simp only [blossomPairs] at hp hq
  rw [mem_pairsOfMat] at hp hq
  obtain ⟨hp1, hp2, hp3, hp4⟩ := hp
  obtain ⟨hq1, hq2, hq3, hq4⟩ := hq
  by_cases hall : ((List.range L).all fun i => (List.range L).all fun j =>
      decide (¬ 0 < preprocess seq M i j)) = true
  · rw [blossomOut, if_pos hall] at hp4
    rw [List.all_eq_true] at hall
    have := hall p.1 (List.mem_range.mpr hp1)
    rw [List.all_eq_true] at this
    have := this p.2 (List.mem_range.mpr hp2)
    rw [decide_eq_true_eq] at this
    exact absurd hp4 this
  · rw [blossomOut, if_neg hall] at hp4 hq4
    have hmp : (p.1, p.2) ∈ matchRes ∨ (p.2, p.1) ∈ matchRes := by
      by_contra hc
      rw [if_neg hc] at hp4
      exact absurd hp4 (lt_irrefl 0)
    have hmq : (q.1, q.2) ∈ matchRes ∨ (q.2, q.1) ∈ matchRes := by
      by_contra hc
      rw [if_neg hc] at hq4
      exact absurd hq4 (lt_irrefl 0)
    intro hcontra
    have hforall := hm2.forall sharesIdx_symm_not
    rcases hmp with hmp | hmp <;> rcases hmq with hmq | hmq
    · by_cases he : ((p.1 : ℕ), p.2) = (q.1, q.2)
      · rw [Prod.mk.injEq] at he
        exact hne (Prod.ext he.1 he.2)
      · apply hforall hmp hmq he
        dsimp only [sharesIdx] at hcontra ⊢
        tauto
    · by_cases he : ((p.1 : ℕ), p.2) = (q.2, q.1)
      · rw [Prod.mk.injEq] at he
        omega
      · apply hforall hmp hmq he
        dsimp only [sharesIdx] at hcontra ⊢
        tauto
    · by_cases he : ((p.2 : ℕ), p.1) = (q.1, q.2)
      · rw [Prod.mk.injEq] at he
        omega
      · apply hforall hmp hmq he
        dsimp only [sharesIdx] at hcontra ⊢
        tauto
    · by_cases he : ((p.2 : ℕ), p.1) = (q.2, q.1)
      · rw [Prod.mk.injEq] at he
        exact hne (Prod.ext he.2 he.1)
      · apply hforall hmp hmq he
        dsimp only [sharesIdx] at hcontra ⊢
        tauto

/-- C3: matching invariant — for the GreedyDecoder, the Binarizer, the
NonCrossingDPDecoder and the WeightedMatchingDecoder, no sequence index
appears in more than one returned pair.  For the
WeightedMatchingDecoder the two hypotheses are the documented contract
of the external `nx.max_weight_matching` call (a matching: no
self-loops, no two edges sharing a node). -/
theorem decoders_matching_invariant :
    (∀ (M : ℕ → ℕ → ℚ) (seq : ℕ → Base) (L gt : ℕ),
      List.Pairwise (fun p q => ¬ sharesIdx p q) (greedyAccepted M seq L gt)) ∧
    (∀ (lab : ℕ → ℕ → ℚ) (fullLen : ℕ) (seq : ℕ → Base)
      (seqLen thresPairs : ℕ) (thresProb : ℚ) (minDist : ℕ)
      (symF canonF : Bool),
      List.Pairwise (fun p q => ¬ sharesIdx p q)
        ((binarize lab fullLen seq seqLen thresPairs thresProb minDist
          symF canonF).2)) ∧
    (∀ (M : ℕ → ℕ → ℚ) (seq : ℕ → Base) (L : ℕ),
      List.Pairwise (fun p q => ¬ sharesIdx p q) (dynamicPairs M seq L)) ∧
    (∀ (matchRes : List (ℕ × ℕ)) (M : ℕ → ℕ → ℚ) (seq : ℕ → Base) (L : ℕ),
      (∀ e ∈ matchRes, e.1 ≠ e.2) →
      List.Pairwise (fun p q => ¬ sharesIdx p q) matchRes →
      List.Pairwise (fun p q => ¬ sharesIdx p q)
        (blossomPairs matchRes M seq L)) := by
  refine ⟨?_, ?_, ?_, ?_⟩
  · intro M seq L gt
    exact (selRun_good _ _ _ _ storeOK_id _).2
  · intro lab fullLen seq seqLen thresPairs thresProb minDist symF canonF
    exact (selRun_good _ _ _ _ storeOK_sortPair _).2
  · intro M seq L
    exact tb_disjoint (preprocess seq M) 4 0 (L - 1)
  · intro matchRes M seq L hm1 hm2
    exact blossomPairs_pairwise matchRes M seq L hm1 hm2

/-- Witness for C3: the WeightedMatchingDecoder part applied to the
concrete matching [(0, 4)] on the all-ones matrix with sequence AAAAU,
discharging the matching hypotheses by computation. -/
theorem decoders_matching_invariant_witness :
    List.Pairwise (fun p q => ¬ sharesIdx p q)
      (blossomPairs [(0, 4)] onesMat seqAU 5) :=
  decoders_matching_invariant.2.2.2 [(0, 4)] onesMat seqAU 5
    (by decide) (by decide)

theorem canonPrime_comm (b c : Base) : canonPrime b c = canonPrime c b := by
  cases b <;> cases c <;> decide

theorem inPAIRS_eq_canonPrime (b c : Base) : inPAIRS b c = canonPrime b c := by
  cases b <;> cases c <;> decide

theorem preprocess_symm (M : ℕ → ℕ → ℚ) (seq : ℕ → Base) (i j : ℕ) :
    preprocess seq M i j = preprocess seq M j i := by
  unfold preprocess canonicalize removeSharp symmetrize
  by_cases hcan : canonPrime (seq i) (seq j) = true
  · have hcan' : canonPrime (seq j) (seq i) = true := by
      rw [canonPrime_comm]; exact hcan
    rw [if_pos hcan, if_pos hcan']
    by_cases hfar : 4 ≤ i - j ∨ 4 ≤ j - i
    · rw [if_pos hfar, if_pos (Or.symm hfar)]
      ring
    · rw [if_neg hfar, if_neg (fun hc => hfar (Or.symm hc))]
  · have hcan' : ¬ canonPrime (seq j) (seq i) = true := by
      rw [canonPrime_comm]; exact hcan
    rw [if_neg hcan, if_neg hcan']

theorem preprocess_sortPair (M : ℕ → ℕ → ℚ) (seq : ℕ → Base) (p : ℕ × ℕ) :
    preprocess seq M (sortPair p).1 (sortPair p).2 =
      preprocess seq M p.1 p.2 := by
  unfold sortPair
  rcases le_total p.1 p.2 with h | h
  · rw [min_eq_left h, max_eq_right h]
  · rw [min_eq_right h, max_eq_left h]
    exact preprocess_symm M seq p.2 p.1

/-- `lab + lab.T`, the symmetrization used by `binarize` (no division
by 2). -/
def symTwice (M : ℕ → ℕ → ℚ) : ℕ → ℕ → ℚ := fun i j => M i j + M j i

theorem binLabS_no_pad (M : ℕ → ℕ → ℚ) (L : ℕ) :
    binLabS M ((L - L) / 2) true = symTwice M := by
  funext i j
  simp [binLabS, symTwice, Nat.sub_self]

theorem preprocess_flat (M : ℕ → ℕ → ℚ) (seq : ℕ → Base) (L idx : ℕ) :
    flatVal L (preprocess seq M) idx =
      if canonPrime (seq (idx / L)) (seq (idx % L)) &&
          decide (4 ≤ idx / L - idx % L ∨ 4 ≤ idx % L - idx / L) then
        flatVal L (symTwice M) idx / 2
      else 0 := by
  unfold flatVal preprocess canonicalize removeSharp symmetrize symTwice
  by_cases hcan : canonPrime (seq (idx / L)) (seq (idx % L)) = true
  · by_cases hfar : 4 ≤ idx / L - idx % L ∨ 4 ≤ idx % L - idx / L
    · rw [if_pos hcan, if_pos hfar, if_pos (by simp [hcan, hfar])]
    · rw [if_pos hcan, if_neg hfar, if_neg (by simp [hfar])]
  · rw [if_neg hcan, if_neg (by simp [hcan])]

theorem preprocess_flat_pos (M : ℕ → ℕ → ℚ) (seq : ℕ → Base) (L idx : ℕ) :
    0 < flatVal L (preprocess seq M) idx ↔
      (canonPrime (seq (idx / L)) (seq (idx % L)) = true ∧
       (4 ≤ idx / L - idx % L ∨ 4 ≤ idx % L - idx / L) ∧
       0 < flatVal L (symTwice M) idx) := by
  rw [preprocess_flat]
  by_cases hcan : canonPrime (seq (idx / L)) (seq (idx % L)) = true
  · by_cases hfar : 4 ≤ idx / L - idx % L ∨ 4 ≤ idx % L - idx / L
    · rw [if_pos (by simp [hcan, hfar])]
      constructor
      · intro h
        exact ⟨hcan, hfar, by linarith⟩
      · intro h
        have := h.2.2
        linarith
    · rw [if_neg (by simp [hfar])]
      constructor
      · intro h; exact absurd h (lt_irrefl 0)
      · intro h; exact absurd h.2.1 hfar
  · rw [if_neg (by simp [hcan])]
    constructor
    · intro h; exact absurd h (lt_irrefl 0)
    · intro h; exact absurd h.1 hcan

theorem dropWhile_not_pos (v : ℕ → ℚ) :
    ∀ l : List ℕ, List.Pairwise (cellLE v) l →
      ∀ idx ∈ l.dropWhile (fun idx => decide (0 < v idx)), ¬ 0 < v idx := by
  intro l
  induction l with
  | nil => intro _ idx h; exact absurd h (List.not_mem_nil idx)
  | cons a t ih =>
    intro hp idx
    rw [List.pairwise_cons] at hp
    by_cases ha : 0 < v a
    · rw [List.dropWhile_cons, if_pos (decide_eq_true ha)]
      exact ih hp.2 idx
    · rw [List.dropWhile_cons, if_neg (by simp [ha])]
      intro hidx hpos
      rcases List.mem_cons.mp hidx with rfl | hidx
      · exact ha hpos
      · rcases hp.1 idx hidx with hlt | ⟨heq, _⟩
        · exact ha (hpos.trans hlt)
        · exact ha (by rw [heq]; exact hpos)

theorem takeWhile_pos_of_sorted (v : ℕ → ℚ) (l : List ℕ)
    (hp : List.Pairwise (cellLE v) l) :
    l.filter (fun idx => decide (0 < v idx)) =
      l.takeWhile (fun idx => decide (0 < v idx)) := by
  have hsplit :
      l.takeWhile (fun idx => decide (0 < v idx)) ++
        l.dropWhile (fun idx => decide (0 < v idx)) = l :=
    List.takeWhile_append_dropWhile (fun idx => decide (0 < v idx)) l
  have h1 : ∀ a ∈ l.takeWhile (fun idx => decide (0 < v idx)),
      decide (0 < v a) = true := fun a ha => by
    have hgen := List.mem_takeWhile_imp ha
    exact hgen
  have h2 : ∀ a ∈ l.dropWhile (fun idx => decide (0 < v idx)),
      ¬ decide (0 < v a) = true := fun a ha => by
    simp only [decide_eq_true_eq]
    exact dropWhile_not_pos v l hp a ha
  calc l.filter (fun idx => decide (0 < v idx))
      = (l.takeWhile (fun idx => decide (0 < v idx)) ++
          l.dropWhile (fun idx => decide (0 < v idx))).filter
            (fun idx => decide (0 < v idx)) := by rw [hsplit]
    _ = l.takeWhile (fun idx => decide (0 < v idx)) := by
        rw [List.filter_append, List.filter_eq_self.mpr h1,
          List.filter_eq_nil_iff.mpr h2]
        exact List.append_nil _

theorem selStep_co_false (pair : ℕ → ℕ × ℕ) (store : ℕ × ℕ → ℕ × ℕ)
    (co : ℕ → Bool) (cap : ℕ) (s : MState) (idx : ℕ)
    (h : co idx = false) : selStep pair store co cap s idx = s := by
  unfold selStep
  split_ifs with h1 h2
  · rfl
  · rfl
  · exfalso
    push_neg at h2
    rw [h] at h2
    exact Bool.false_ne_true h2.2.2

theorem selFold_co_filter (pair : ℕ → ℕ × ℕ) (store : ℕ × ℕ → ℕ × ℕ)
    (co : ℕ → Bool) (cap : ℕ) :
    ∀ (l : List ℕ) (s : MState),
      l.foldl (selStep pair store co cap) s =
        (l.filter co).foldl (selStep pair store co cap) s := by
  intro l
  induction l with
  | nil => intro s; rfl
  | cons a tl ih =>
    intro s
    rw [List.foldl_cons, List.filter_cons]
    by_cases h : co a = true
    · rw [if_pos h, List.foldl_cons]
      exact ih _
    · rw [if_neg h,
        selStep_co_false pair store co cap s a (Bool.eq_false_iff.mpr h)]
      exact ih s

theorem selFold_acc (pair : ℕ → ℕ × ℕ) (store : ℕ × ℕ → ℕ × ℕ)
    (co : ℕ → Bool) (cap : ℕ) :
    ∀ (l : List ℕ) (s : MState),
      ∃ e : List (ℕ × ℕ),
        (l.foldl (selStep pair store co cap) s).acc = s.acc ++ e ∧
        ∀ p ∈ e, ∃ idx ∈ l, p = store (pair idx) := by
  intro l
  induction l with
  | nil =>
    intro s
    exact ⟨[], (List.append_nil _).symm,
      fun p hp => absurd hp (List.not_mem_nil p)⟩
  | cons a tl ih =>
    intro s
    rw [List.foldl_cons]
    obtain ⟨e, he1, he2⟩ := ih (selStep pair store co cap s a)
    have hstep : (selStep pair store co cap s a).acc = s.acc ∨
        (selStep pair store co cap s a).acc = s.acc ++ [store (pair a)] := by
      unfold selStep
      split_ifs
      · exact Or.inl rfl
      · exact Or.inl rfl
      · exact Or.inr rfl
    rcases hstep with h | h
    · refine ⟨e, by rw [he1, h], fun p hp => ?_⟩
      obtain ⟨idx, hi, hpi⟩ := he2 p hp
      exact ⟨idx, List.mem_cons_of_mem _ hi, hpi⟩
    · refine ⟨store (pair a) :: e, ?_, fun p hp => ?_⟩
      · rw [he1, h, List.append_assoc]
        rfl
      · rcases List.mem_cons.mp hp with rfl | hp
        · exact ⟨a, List.mem_cons_self _ _, rfl⟩
        · obtain ⟨idx, hi, hpi⟩ := he2 p hp
          exact ⟨idx, List.mem_cons_of_mem _ hi, hpi⟩

theorem sortPair_swap (a b : ℕ) : sortPair (a, b) = sortPair (b, a) := by
  unfold sortPair
  rw [Prod.mk.injEq]
  exact ⟨min_comm a b, max_comm a b⟩

/-- If the used-index list is duplicate-free, bounded by L and already
holds at least L - 1 indices, then any two distinct indices below L
cannot both be fresh: one of them is already used. -/
theorem used_saturated (L : ℕ) (used : List ℕ) (hnd : used.Nodup)
    (hlt : ∀ x ∈ used, x < L) (hlen : L - 1 ≤ used.length)
    (i j : ℕ) (hij : i ≠ j) (hi : i < L) (hj : j < L) :
    i ∈ used ∨ j ∈ used := by
  by_contra hc
  push_neg at hc
  obtain ⟨hiu, hju⟩ := hc
  have hjS : j ∉ used.toFinset := by
    rw [List.mem_toFinset]
    exact hju
  have hiS : i ∉ insert j used.toFinset := by
    rw [Finset.mem_insert]
    rintro (rfl | hiS)
    · exact hij rfl
    · exact hiu (List.mem_toFinset.mp hiS)
  have hsub : insert i (insert j used.toFinset) ⊆ Finset.range L := by
    intro x hx
    rw [Finset.mem_range]
    rcases Finset.mem_insert.mp hx with rfl | hx
    · exact hi
    rcases Finset.mem_insert.mp hx with rfl | hx
    · exact hj
    · exact hlt x (List.mem_toFinset.mp hx)
  have hcard := Finset.card_le_card hsub
  rw [Finset.card_insert_of_not_mem hiS, Finset.card_insert_of_not_mem hjS,
    List.toFinset_card_of_nodup hnd, Finset.card_range] at hcard
  omega

/-- The simulation relation between a `Greedy.forward` loop state and a
`binarize` loop state: the used-index sets agree, the greedy accepted
pairs, normalized, are exactly the binarize accepted pairs, and the
used list is an exact double-count of the accepted pairs (duplicate
free, bounded by L, two fresh indices per acceptance), with the
accepted count within Greedy's clamped cap. -/
def selRel2 (L gt : ℕ) (s t : MState) : Prop :=
  (∀ x, x ∈ s.used ↔ x ∈ t.used) ∧
  s.acc.map sortPair = t.acc ∧
  s.used.Nodup ∧
  (∀ x ∈ s.used, x < L) ∧
  s.used.length = 2 * s.acc.length ∧
  s.acc.length ≤ min gt (L / 2)

theorem selStep_rel2 (L gt : ℕ) (co : ℕ → Bool) (s t : MState) (idx : ℕ)
    (hco : co idx = true) (hij : idx / L ≠ idx % L)
    (hi : idx / L < L) (hj : idx % L < L)
    (hrel : selRel2 L gt s t) :
    selRel2 L gt
      (selStep (fun i => (i % L, i / L)) id (fun _ => true)
        (min gt (L / 2)) s idx)
      (selStep (fun i => (i / L, i % L)) sortPair co gt t idx) := by
  obtain ⟨hused, hacc, hnd, hlt, hlen, hcap⟩ := hrel
  have hlent : s.acc.length = t.acc.length := by
    rw [← hacc, List.length_map]
  unfold selStep
  by_cases hcapS : s.acc.length = min gt (L / 2)
  · by_cases hcapT : t.acc.length = gt
    · rw [if_pos hcapS, if_pos hcapT]
      exact ⟨hused, hacc, hnd, hlt, hlen, hcap⟩
    · have hmin : min gt (L / 2) = L / 2 := by
        rcases Nat.le_total gt (L / 2) with h | h
        · exfalso
          rw [min_eq_left h] at hcapS
          exact hcapT (by rw [← hlent, hcapS])
        · exact min_eq_right h
      have hsatS : idx / L ∈ s.used ∨ idx % L ∈ s.used := by
        refine used_saturated L s.used hnd hlt ?_ (idx / L) (idx % L)
          hij hi hj
        rw [hlen, hcapS, hmin]
        omega
      have hskipT : ((fun i => (i / L, i % L)) idx).1 ∈ t.used ∨
          ((fun i => (i / L, i % L)) idx).2 ∈ t.used ∨ ¬ co idx = true := by
        rcases hsatS with h | h
        · exact Or.inl ((hused _).mp h)
        · exact Or.inr (Or.inl ((hused _).mp h))
      rw [if_pos hcapS, if_neg hcapT, if_pos hskipT]
      exact ⟨hused, hacc, hnd, hlt, hlen, hcap⟩
  · have hltcap : s.acc.length < min gt (L / 2) := lt_of_le_of_ne hcap hcapS
    have hcapT : ¬ t.acc.length = gt := by
      rw [← hlent]
      have hle := min_le_left gt (L / 2)
      omega
    rw [if_neg hcapS, if_neg hcapT]
    by_cases hskip : idx % L ∈ s.used ∨ idx / L ∈ s.used
    · have hskipS : ((fun i => (i % L, i / L)) idx).1 ∈ s.used ∨
          ((fun i => (i % L, i / L)) idx).2 ∈ s.used ∨
          ¬ (fun _ : ℕ => true) idx = true := by
        rcases hskip with h | h
        · exact Or.inl h
        · exact Or.inr (Or.inl h)
      have hskipT : ((fun i => (i / L, i % L)) idx).1 ∈ t.used ∨
          ((fun i => (i / L, i % L)) idx).2 ∈ t.used ∨ ¬ co idx = true := by
        rcases hskip with h | h
        · exact Or.inr (Or.inl ((hused _).mp h))
        · exact Or.inl ((hused _).mp h)
      rw [if_pos hskipS, if_pos hskipT]
      exact ⟨hused, hacc, hnd, hlt, hlen, hcap⟩
    · push_neg at hskip
      have hskipS : ¬ (((fun i => (i % L, i / L)) idx).1 ∈ s.used ∨
          ((fun i => (i % L, i / L)) idx).2 ∈ s.used ∨
          ¬ (fun _ : ℕ => true) idx = true) := by
        intro h
        rcases h with h | h | h
        · exact hskip.1 h
        · exact hskip.2 h
        · exact h rfl
      have hskipT : ¬ (((fun i => (i / L, i % L)) idx).1 ∈ t.used ∨
          ((fun i => (i / L, i % L)) idx).2 ∈ t.used ∨ ¬ co idx = true) := by
        intro h
        rcases h with h | h | h
        · exact hskip.2 ((hused _).mpr h)
        · exact hskip.1 ((hused _).mpr h)
        · exact h hco
      rw [if_neg hskipS, if_neg hskipT]
      refine ⟨?_, ?_, ?_, ?_, ?_, ?_⟩
      · intro x
        simp only [List.mem_cons]
        constructor
        · intro h
          rcases h with h | h | h
          · exact Or.inr (Or.inl h)
          · exact Or.inl h
          · exact Or.inr (Or.inr ((hused x).mp h))
        · intro h
          rcases h with h | h | h
          · exact Or.inr (Or.inl h)
          · exact Or.inl h
          · exact Or.inr (Or.inr ((hused x).mpr h))
      · rw [List.map_append, hacc, List.map_singleton]
        have hsw : sortPair (id ((idx % L : ℕ), (idx / L : ℕ))) =
            sortPair ((idx / L : ℕ), (idx % L : ℕ)) := sortPair_swap _ _
        rw [hsw]
      · rw [List.nodup_cons, List.nodup_cons]
        refine ⟨?_, hskip.2, hnd⟩
        rw [List.mem_cons]
        rintro (h | h)
        · exact hij h.symm
        · exact hskip.1 h
      · intro x hx
        rw [List.mem_cons] at hx
        rcases hx with rfl | hx
        · exact hj
        rw [List.mem_cons] at hx
        rcases hx with rfl | hx
        · exact hi
        · exact hlt x hx
      · simp only [List.length_cons, List.length_append, List.length_singleton,
          List.length_nil]
        omega
      · simp only [List.length_append, List.length_singleton, List.length_cons,
          List.length_nil]
        omega

theorem selFold_rel2 (L gt : ℕ) (co : ℕ → Bool) :
    ∀ (l : List ℕ),
      (∀ idx ∈ l, co idx = true ∧ idx / L ≠ idx % L ∧
        idx / L < L ∧ idx % L < L) →
      ∀ (s t : MState), selRel2 L gt s t →
      selRel2 L gt
        (l.foldl (selStep (fun i => (i % L, i / L)) id (fun _ => true)
          (min gt (L / 2))) s)
        (l.foldl (selStep (fun i => (i / L, i % L)) sortPair co gt) t) := by
  intro l
  induction l with
  | nil => intro _ s t h; exact h
  | cons a tl ih =>
    intro hl s t h
    rw [List.foldl_cons, List.foldl_cons]
    have ha := hl a (List.mem_cons_self _ _)
    exact ih (fun idx hi => hl idx (List.mem_cons_of_mem _ hi)) _ _
      (selStep_rel2 L gt co s t a ha.1 ha.2.1 ha.2.2.1 ha.2.2.2 h)

theorem vG_half (M : ℕ → ℕ → ℚ) (seq : ℕ → Base) (L idx : ℕ)
    (h : 0 < flatVal L (preprocess seq M) idx) :
    flatVal L (preprocess seq M) idx = flatVal L (symTwice M) idx / 2 := by
  obtain ⟨hc, hf, _⟩ := (preprocess_flat_pos M seq L idx).mp h
  rw [preprocess_flat, if_pos (by simp [hc, hf])]

theorem pos_prefix_eq (M : ℕ → ℕ → ℚ) (seq : ℕ → Base) (L : ℕ) :
    ((binCands M L L 4 true).takeWhile
        (fun idx => decide (0 < flatVal L (symTwice M) idx))).filter
      (fun idx => !true || inPAIRS (seq (idx / L)) (seq (idx % L))) =
    (sortedCells (flatVal L (preprocess seq M)) (L * L)).takeWhile
      (fun idx => decide (0 < flatVal L (preprocess seq M) idx)) := by
  have hcands : binCands M L L 4 true =
      (sortedCells (flatVal L (symTwice M)) (L * L)).filter
        (fun idx => decide (4 ≤ idx / L - idx % L ∨ 4 ≤ idx % L - idx / L)) := by
    unfold binCands
    rw [binLabS_no_pad]
  have hsortB : List.Pairwise (cellLE (flatVal L (symTwice M)))
      (sortedCells (flatVal L (symTwice M)) (L * L)) :=
    List.sorted_insertionSort _ _
  have hsortCands : List.Pairwise (cellLE (flatVal L (symTwice M)))
      (binCands M L L 4 true) := by
    rw [hcands]
    exact List.Pairwise.sublist (List.filter_sublist _) hsortB
  have hsortG : List.Pairwise (cellLE (flatVal L (preprocess seq M)))
      (sortedCells (flatVal L (preprocess seq M)) (L * L)) :=
    List.sorted_insertionSort _ _
  rw [← takeWhile_pos_of_sorted (flatVal L (symTwice M)) _ hsortCands,
    ← takeWhile_pos_of_sorted (flatVal L (preprocess seq M)) _ hsortG]
  refine @List.eq_of_perm_of_sorted ℕ (cellLE (flatVal L (symTwice M))) _ _ _ ?_ ?_ ?_
  · -- permutation
    have hpt : ∀ idx : ℕ,
        ((!true || inPAIRS (seq (idx / L)) (seq (idx % L))) &&
          (decide (0 < flatVal L (symTwice M) idx) &&
            decide (4 ≤ idx / L - idx % L ∨ 4 ≤ idx % L - idx / L))) =
        decide (0 < flatVal L (preprocess seq M) idx) := by
      intro idx
      rw [Bool.eq_iff_iff]
      simp only [Bool.and_eq_true, Bool.or_eq_true, decide_eq_true_eq,
        Bool.not_true, Bool.false_or]
      rw [preprocess_flat_pos, inPAIRS_eq_canonPrime]
      constructor
      · rintro ⟨h1, h2, h3⟩
        exact ⟨h1, h3, h2⟩
      · rintro ⟨h1, h2, h3⟩
        exact ⟨h1, h3, h2⟩
    have p1 : List.Perm
        (((binCands M L L 4 true).filter
          (fun idx => decide (0 < flatVal L (symTwice M) idx))).filter
          (fun idx => !true || inPAIRS (seq (idx / L)) (seq (idx % L))))
        ((((List.range (L * L)).filter
          (fun idx => decide (4 ≤ idx / L - idx % L ∨ 4 ≤ idx % L - idx / L))).filter
          (fun idx => decide (0 < flatVal L (symTwice M) idx))).filter
          (fun idx => !true || inPAIRS (seq (idx / L)) (seq (idx % L)))) := by
      rw [hcands]
      exact (((List.perm_insertionSort _ _).filter _).filter _).filter _
    have p2 : List.Perm
        ((sortedCells (flatVal L (preprocess seq M)) (L * L)).filter
          (fun idx => decide (0 < flatVal L (preprocess seq M) idx)))
        ((List.range (L * L)).filter
          (fun idx => decide (0 < flatVal L (preprocess seq M) idx))) :=
      (List.perm_insertionSort _ _).filter _
    have heq : (((List.range (L * L)).filter
          (fun idx => decide (4 ≤ idx / L - idx % L ∨ 4 ≤ idx % L - idx / L))).filter
          (fun idx => decide (0 < flatVal L (symTwice M) idx))).filter
        (fun idx => !true || inPAIRS (seq (idx / L)) (seq (idx % L))) =
        (List.range (L * L)).filter
          (fun idx => decide (0 < flatVal L (preprocess seq M) idx)) := by
      rw [List.filter_filter, List.filter_filter]
      apply List.filter_congr
      intro idx _
      rw [← hpt idx, Bool.and_assoc]
    exact p1.trans (heq ▸ p2.symm)
  · -- LHS sorted
    exact List.Pairwise.sublist
      ((List.filter_sublist _).trans (List.filter_sublist _)) hsortCands
  · -- RHS sorted, transported from the greedy order to the binarize order
    have hsub : List.Sublist
        ((sortedCells (flatVal L (preprocess seq M)) (L * L)).filter
          (fun idx => decide (0 < flatVal L (preprocess seq M) idx)))
        (sortedCells (flatVal L (preprocess seq M)) (L * L)) :=
      List.filter_sublist _
    have hp : List.Pairwise (cellLE (flatVal L (preprocess seq M)))
        ((sortedCells (flatVal L (preprocess seq M)) (L * L)).filter
          (fun idx => decide (0 < flatVal L (preprocess seq M) idx))) :=
      List.Pairwise.sublist hsub hsortG
    apply List.Pairwise.imp_of_mem ?_ hp
    intro a b ha hb hab
    have hpa : 0 < flatVal L (preprocess seq M) a := by
      have := (List.mem_filter.mp ha).2
      simpa using this
    have hpb : 0 < flatVal L (preprocess seq M) b := by
      have := (List.mem_filter.mp hb).2
      simpa using this
    have h2a := vG_half M seq L a hpa
    have h2b := vG_half M seq L b hpb
    rcases hab with hlt | ⟨heq, hle⟩
    · rw [h2a, h2b] at hlt
      exact Or.inl (by linarith)
    · rw [h2a, h2b] at heq
      exact Or.inr ⟨by linarith, hle⟩

theorem selRun_acc_filter (pair : ℕ → ℕ × ℕ) (store : ℕ × ℕ → ℕ × ℕ)
    (co : ℕ → Bool) (cap : ℕ) (l1 l2 : List ℕ) (posP : ℕ × ℕ → Bool)
    (h1 : ∀ idx ∈ l1, posP (store (pair idx)) = true)
    (h2 : ∀ idx ∈ l2, posP (store (pair idx)) = false) :
    (((l1 ++ l2).foldl (selStep pair store co cap) ⟨[], []⟩).acc).filter posP =
    (l1.foldl (selStep pair store co cap) ⟨[], []⟩).acc := by
  rw [List.foldl_append]
  obtain ⟨e2, he1, he2'⟩ := selFold_acc pair store co cap l2
    (l1.foldl (selStep pair store co cap) ⟨[], []⟩)
  obtain ⟨e1, ha1, ha2'⟩ := selFold_acc pair store co cap l1 ⟨[], []⟩
  rw [he1, List.filter_append]
  have hf2 : e2.filter posP = [] := by
    rw [List.filter_eq_nil_iff]
    intro p hp
    obtain ⟨idx, hi, rfl⟩ := he2' p hp
    rw [h2 idx hi]
    exact Bool.false_ne_true
  have hf1 : ((l1.foldl (selStep pair store co cap) ⟨[], []⟩).acc).filter posP =
      (l1.foldl (selStep pair store co cap) ⟨[], []⟩).acc := by
    rw [List.filter_eq_self]
    intro p hp
    rw [ha1] at hp
    simp only [List.nil_append] at hp
    obtain ⟨idx, hi, rfl⟩ := ha2' p hp
    exact h1 idx hi
  rw [hf2, hf1, List.append_nil]

/-- C4 amended: with no padding and identical settings, for every
target pair count the Binarizer and the GreedyDecoder return exactly
the same positively-scored pairs; they may differ only on pairs of
non-positive score, which `binarize` can emit and `Greedy.forward` can
consume as invisible zero-score cells.  Greedy's internal clamp
`min(ground_truth, L // 2)` never binds differently from `binarize`'s
`thres_pairs` on positive pairs: each positive acceptance uses two
fresh indices below L, so once ⌊L/2⌋ pairs are accepted every further
far candidate is index-blocked in both loops. -/
theorem binarize_eq_greedy_on_positive (M : ℕ → ℕ → ℚ) (seq : ℕ → Base)
    (L gt : ℕ) :
    ((binarize M L seq L gt 0 4 true true).2).filter
        (fun p => decide (0 < preprocess seq M p.1 p.2)) =
      ((greedyAccepted M seq L gt).map sortPair).filter
        (fun p => decide (0 < preprocess seq M p.1 p.2)) := by
  have hsortG : List.Pairwise (cellLE (flatVal L (preprocess seq M)))
      (sortedCells (flatVal L (preprocess seq M)) (L * L)) :=
    List.sorted_insertionSort _ _
  have hcands : binCands M L L 4 true =
      (sortedCells (flatVal L (symTwice M)) (L * L)).filter
        (fun idx => decide (4 ≤ idx / L - idx % L ∨ 4 ≤ idx % L - idx / L)) := by
    unfold binCands
    rw [binLabS_no_pad]
  have hsortCands : List.Pairwise (cellLE (flatVal L (symTwice M)))
      (binCands M L L 4 true) := by
    rw [hcands]
    exact List.Pairwise.sublist (List.filter_sublist _)
      (List.sorted_insertionSort _ _)
  have hsortFC : List.Pairwise (cellLE (flatVal L (symTwice M)))
      ((binCands M L L 4 true).filter
        (fun idx => !true || inPAIRS (seq (idx / L)) (seq (idx % L)))) :=
    List.Pairwise.sublist (List.filter_sublist _) hsortCands
  have hfar : ∀ idx ∈ binCands M L L 4 true,
      4 ≤ idx / L - idx % L ∨ 4 ≤ idx % L - idx / L := by
    intro idx hidx
    rw [hcands, List.mem_filter] at hidx
    have := hidx.2
    simpa using this
  have hval1 : ∀ idx : ℕ,
      (fun p : ℕ × ℕ => decide (0 < preprocess seq M p.1 p.2))
        (sortPair (idx % L, idx / L)) =
      decide (0 < flatVal L (preprocess seq M) idx) := by
    intro idx
    show decide (0 < preprocess seq M (sortPair ((idx % L : ℕ), (idx / L : ℕ))).1
      (sortPair ((idx % L : ℕ), (idx / L : ℕ))).2) = _
    rw [preprocess_sortPair]
    show decide (0 < preprocess seq M (idx % L) (idx / L)) = _
    rw [preprocess_symm M seq (idx % L) (idx / L)]
    rfl
  have hval2 : ∀ idx : ℕ,
      (fun p : ℕ × ℕ => decide (0 < preprocess seq M p.1 p.2))
        (sortPair (idx / L, idx % L)) =
      decide (0 < flatVal L (preprocess seq M) idx) := by
    intro idx
    rw [sortPair_swap]
    exact hval1 idx
  have hgre : greedyAccepted M seq L gt =
      ((sortedCells (flatVal L (preprocess seq M)) (L * L)).foldl
        (selStep (fun idx => (idx % L, idx / L)) id (fun _ => true)
          (min gt (L / 2)))
        ⟨[], []⟩).acc := rfl
  have hGside : ((greedyAccepted M seq L gt).map sortPair).filter
      (fun p => decide (0 < preprocess seq M p.1 p.2)) =
      ((((sortedCells (flatVal L (preprocess seq M)) (L * L)).takeWhile
          (fun idx => decide (0 < flatVal L (preprocess seq M) idx))).foldl
        (selStep (fun idx => (idx % L, idx / L)) id (fun _ => true)
          (min gt (L / 2)))
        ⟨[], []⟩).acc).map sortPair := by
    rw [hgre, List.filter_map]
    congr 1
    have hsplit : sortedCells (flatVal L (preprocess seq M)) (L * L) =
        (sortedCells (flatVal L (preprocess seq M)) (L * L)).takeWhile
          (fun idx => decide (0 < flatVal L (preprocess seq M) idx)) ++
        (sortedCells (flatVal L (preprocess seq M)) (L * L)).dropWhile
          (fun idx => decide (0 < flatVal L (preprocess seq M) idx)) :=
      (List.takeWhile_append_dropWhile _ _).symm
    conv_lhs => rw [hsplit]
    apply selRun_acc_filter
    · intro idx hidx
      show (fun p : ℕ × ℕ => decide (0 < preprocess seq M p.1 p.2))
        (sortPair (idx % L, idx / L)) = true
      rw [hval1 idx]
      have hgen := List.mem_takeWhile_imp hidx
      exact hgen
    · intro idx hidx
      show (fun p : ℕ × ℕ => decide (0 < preprocess seq M p.1 p.2))
        (sortPair (idx % L, idx / L)) = false
      rw [hval1 idx]
      exact decide_eq_false (dropWhile_not_pos _ _ hsortG idx hidx)
  have hbin : (binarize M L seq L gt 0 4 true true).2 =
      ((binCands M L L 4 true).foldl
        (selStep (fun idx => (idx / L, idx % L)) sortPair
          (fun idx => !true || inPAIRS (seq (idx / L)) (seq (idx % L))) gt)
        ⟨[], []⟩).acc := rfl
  have hBside : ((binarize M L seq L gt 0 4 true true).2).filter
      (fun p => decide (0 < preprocess seq M p.1 p.2)) =
      (((((binCands M L L 4 true).filter
          (fun idx => !true || inPAIRS (seq (idx / L)) (seq (idx % L)))).takeWhile
          (fun idx => decide (0 < flatVal L (symTwice M) idx))).foldl
        (selStep (fun idx => (idx / L, idx % L)) sortPair
          (fun idx => !true || inPAIRS (seq (idx / L)) (seq (idx % L))) gt)
        ⟨[], []⟩).acc) := by
    rw [hbin, selFold_co_filter (fun idx => (idx / L, idx % L)) sortPair
      (fun idx => !true || inPAIRS (seq (idx / L)) (seq (idx % L))) gt
      (binCands M L L 4 true) ⟨[], []⟩]
    have hsplit : (binCands M L L 4 true).filter
        (fun idx => !true || inPAIRS (seq (idx / L)) (seq (idx % L))) =
        ((binCands M L L 4 true).filter
          (fun idx => !true || inPAIRS (seq (idx / L)) (seq (idx % L)))).takeWhile
          (fun idx => decide (0 < flatVal L (symTwice M) idx)) ++
        ((binCands M L L 4 true).filter
          (fun idx => !true || inPAIRS (seq (idx / L)) (seq (idx % L)))).dropWhile
          (fun idx => decide (0 < flatVal L (symTwice M) idx)) :=
      (List.takeWhile_append_dropWhile _ _).symm
    conv_lhs => rw [hsplit]
    apply selRun_acc_filter
    · intro idx hidx
      have hposB : decide (0 < flatVal L (symTwice M) idx) = true := by
        have hgen := List.mem_takeWhile_imp hidx
        exact hgen
      rw [decide_eq_true_eq] at hposB
      have hmemFC : idx ∈ (binCands M L L 4 true).filter
          (fun idx => !true || inPAIRS (seq (idx / L)) (seq (idx % L))) :=
        (List.takeWhile_prefix _).sublist.subset hidx
      rw [List.mem_filter] at hmemFC
      have hcanon : canonPrime (seq (idx / L)) (seq (idx % L)) = true := by
        have := hmemFC.2
        rw [← inPAIRS_eq_canonPrime]
        simpa using this
      have hposG : 0 < flatVal L (preprocess seq M) idx :=
        (preprocess_flat_pos M seq L idx).mpr
          ⟨hcanon, hfar idx hmemFC.1, hposB⟩
      show (fun p : ℕ × ℕ => decide (0 < preprocess seq M p.1 p.2))
        (sortPair (idx / L, idx % L)) = true
      rw [hval2 idx]
      exact decide_eq_true hposG
    · intro idx hidx
      have hnB : ¬ 0 < flatVal L (symTwice M) idx :=
        dropWhile_not_pos _ _ hsortFC idx hidx
      have hnG : ¬ 0 < flatVal L (preprocess seq M) idx := by
        intro hc
        exact hnB ((preprocess_flat_pos M seq L idx).mp hc).2.2
      show (fun p : ℕ × ℕ => decide (0 < preprocess seq M p.1 p.2))
        (sortPair (idx / L, idx % L)) = false
      rw [hval2 idx]
      exact decide_eq_false hnG
  have hbridge : ((binCands M L L 4 true).filter
      (fun idx => !true || inPAIRS (seq (idx / L)) (seq (idx % L)))).takeWhile
      (fun idx => decide (0 < flatVal L (symTwice M) idx)) =
      (sortedCells (flatVal L (preprocess seq M)) (L * L)).takeWhile
        (fun idx => decide (0 < flatVal L (preprocess seq M) idx)) := by
    rw [← takeWhile_pos_of_sorted (flatVal L (symTwice M)) _ hsortFC]
    have hppe := pos_prefix_eq M seq L
    rw [← takeWhile_pos_of_sorted (flatVal L (symTwice M)) _ hsortCands] at hppe
    rw [List.filter_filter] at hppe ⊢
    rw [← hppe]
    apply List.filter_congr
    intro idx _
    exact Bool.and_comm _ _
  have helem : ∀ idx ∈ (sortedCells (flatVal L (preprocess seq M)) (L * L)).takeWhile
      (fun idx => decide (0 < flatVal L (preprocess seq M) idx)),
      (fun idx => !true || inPAIRS (seq (idx / L)) (seq (idx % L))) idx = true ∧
      idx / L ≠ idx % L ∧ idx / L < L ∧ idx % L < L := by
    intro idx hidx
    have hpos : decide (0 < flatVal L (preprocess seq M) idx) = true := by
      have hgen := List.mem_takeWhile_imp hidx
      exact hgen
    rw [decide_eq_true_eq] at hpos
    obtain ⟨hc, hfarp, _⟩ := (preprocess_flat_pos M seq L idx).mp hpos
    have hmem : idx ∈ List.range (L * L) := by
      have h1 : idx ∈ sortedCells (flatVal L (preprocess seq M)) (L * L) :=
        (List.takeWhile_prefix _).sublist.subset hidx
      exact ((List.perm_insertionSort _ _).mem_iff).mp h1
    rw [List.mem_range] at hmem
    have hL : 0 < L := by
      rcases Nat.eq_zero_or_pos L with rfl | h
      · simp at hmem
      · exact h
    have hdiv : idx / L < L := Nat.div_lt_of_lt_mul hmem
    have hmod : idx % L < L := Nat.mod_lt _ hL
    refine ⟨?_, ?_, hdiv, hmod⟩
    · show (!true || inPAIRS (seq (idx / L)) (seq (idx % L))) = true
      rw [inPAIRS_eq_canonPrime, hc]
      rfl
    · intro he
      rw [he] at hfarp
      omega
  have hinit : selRel2 L gt ⟨[], []⟩ ⟨[], []⟩ :=
    ⟨fun x => Iff.rfl, rfl, List.nodup_nil,
     fun x hx => absurd hx (List.not_mem_nil x), rfl, Nat.zero_le _⟩
  have hrel := selFold_rel2 L gt
      (fun idx => !true || inPAIRS (seq (idx / L)) (seq (idx % L)))
      ((sortedCells (flatVal L (preprocess seq M)) (L * L)).takeWhile
        (fun idx => decide (0 < flatVal L (preprocess seq M) idx)))
      helem ⟨[], []⟩ ⟨[], []⟩ hinit
  rw [hBside, hbridge, hGside]
  exact hrel.2.1.symm
